import Mathlib

/-!
Shallow embedding of `src/time_intersection_tool/time_intersection.py`.

An `Instant` (Python `datetime` restricted to minute resolution, as produced
by `datetime.combine(date, strptime(s, "%H:%M").time())`) is encoded as a
natural number `date * 1440 + hour * 60 + minute`; this encoding is
order-isomorphic to Python's lexicographic `(date, time)` comparison, and
`datetime.time()` extraction corresponds to `% 1440`.

The ambient clock read `datetime.today().date()` is made explicit as a
`today : Nat` argument to the functions that perform it, so that the
dependence of the code on the ambient clock is visible in the model.

Python exceptions (the `ValueError` raised by `strptime`) are modelled with
`Except String`, carrying the exception's message text (transliterated
without the quote characters of Python's `%r` formatting).
-/

namespace TimeIntersection

/-- A `datetimeInterval`: a pair of encoded instants. -/
abbrev Iv : Type := Nat × Nat

/-- Comparison of intervals by start, the sort key `lambda x: x[0]`. -/
def startLe (p q : Iv) : Prop := p.1 ≤ q.1

instance : DecidableRel startLe := fun p q => Nat.decLe p.1 q.1

instance : IsTotal Iv startLe := ⟨fun p q => Nat.le_total p.1 q.1⟩

instance : IsTrans Iv startLe := ⟨fun _ _ _ h h' => Nat.le_trans h h'⟩

/-- The gap relation between consecutive canonical intervals: the earlier
one ends strictly before the later one starts (no overlap, no touching). -/
def gap (p q : Iv) : Prop := p.2 < q.1

/-- `intervals.sort(key=lambda x: x[0])`: a stable sort by interval start. -/
def sortByStart (l : List Iv) : List Iv := l.insertionSort startLe

/-- The accumulation loop of `merge`: `acc` is the mutable `merged[-1]`,
already-frozen output elements are emitted to the left. -/
def mergeLoop : Iv → List Iv → List Iv
  | acc, [] => [acc]
  | acc, iv :: rest =>
    if iv.1 ≤ acc.2 then mergeLoop (acc.1, max acc.2 iv.2) rest
    else acc :: mergeLoop iv rest

/-- `merge`: sort by start, then fold overlapping-or-touching intervals. -/
def merge (intervals : List Iv) : List Iv :=
  match sortByStart intervals with
  | [] => []
  | x :: xs => mergeLoop x xs

/-- The cursor loop of `invert`, walking the busy list; emits a free chunk
whenever the cursor falls strictly before the next busy start, and a final
chunk up to the window end. -/
def invertLoop (w1 : Nat) : Nat → List Iv → List Iv
  | cursor, [] => if cursor < w1 then [(cursor, w1)] else []
  | cursor, iv :: rest =>
    (if cursor < iv.1 then [(cursor, iv.1)] else []) ++
      invertLoop w1 (max cursor iv.2) rest

/-- `invert(busy, window)`: subtract busy intervals from the window. -/
def invert (busy : List Iv) (window : Iv) : List Iv :=
  invertLoop window.2 window.1 busy

/-- The two-pointer sweep of `intersect`, with an explicit fuel argument so
that the recursion is structural; `intersect` supplies fuel
`a.length + b.length`, which always suffices since every iteration of the
Python `while` loop advances `i` or `j`. -/
def intersectFuel : Nat → List Iv → List Iv → List Iv
  | 0, _, _ => []
  | _ + 1, [], _ => []
  | _ + 1, _ :: _, [] => []
  | n + 1, x :: xs, y :: ys =>
    let rest := if x.2 < y.2 then intersectFuel n xs (y :: ys)
                else intersectFuel n (x :: xs) ys
    if max x.1 y.1 < min x.2 y.2 then (max x.1 y.1, min x.2 y.2) :: rest
    else rest

/-- `intersect(a, b)`: intersection of two interval lists. -/
def intersect (a b : List Iv) : List Iv :=
  intersectFuel (a.length + b.length) a b

/-- `%H` of `_strptime`: the ordered regex alternation `2[0-3]|[0-1]\d|\d`
applied at the front of the character list. -/
def matchH : List Char → Option (Nat × List Char)
  | '2' :: c :: rest =>
    if '0' ≤ c ∧ c ≤ '3' then some (20 + (c.toNat - 48), rest)
    else some (2, c :: rest)
  | c :: c2 :: rest =>
    if ('0' = c ∨ '1' = c) ∧ c2.isDigit then
      some ((c.toNat - 48) * 10 + (c2.toNat - 48), rest)
    else if c.isDigit then some (c.toNat - 48, c2 :: rest)
    else none
  | [c] => if c.isDigit then some (c.toNat - 48, []) else none
  | [] => none

/-- `%M` of `_strptime`: the ordered regex alternation `[0-5]\d|\d`. -/
def matchM : List Char → Option (Nat × List Char)
  | c :: c2 :: rest =>
    if ('0' ≤ c ∧ c ≤ '5') ∧ c2.isDigit then
      some ((c.toNat - 48) * 10 + (c2.toNat - 48), rest)
    else if c.isDigit then some (c.toNat - 48, c2 :: rest)
    else none
  | [c] => if c.isDigit then some (c.toNat - 48, []) else none
  | [] => none

/-- `datetime.strptime(s, "%H:%M").time()` as minutes since midnight, or the
`ValueError` message `strptime` raises: a failed regex match gives
`time data ... does not match format ...`, while trailing characters after a
successful match give `unconverted data remains: ...`. -/
def parseHM (s : String) : Except String Nat :=
  match matchH s.toList with
  | none => .error ("time data " ++ s ++ " does not match format %H:%M")
  | some (h, rest1) =>
    match rest1 with
    | ':' :: rest2 =>
      match matchM rest2 with
      | none => .error ("time data " ++ s ++ " does not match format %H:%M")
      | some (m, rest3) =>
        if rest3.isEmpty then .ok (h * 60 + m)
        else .error ("unconverted data remains: " ++ String.mk rest3)
    | _ => .error ("time data " ++ s ++ " does not match format %H:%M")

/-- Whether a parse attempt raised (modelled: returned the error branch). -/
def isErr : Except String Nat → Bool
  | .error _ => true
  | .ok _ => false

/-- A raw profile `{'name': ..., 'calendar': [...]}`; `none` for the
calendar models a record that lacks the `'calendar'` key, and each event is
the pair of its `'start'` and `'end'` strings. -/
abbrev Profile : Type := String × Option (List (String × String))

/-- `busy_map`: participant name to merged busy intervals, in dict insertion
order. -/
abbrev BusyMap : Type := List (String × List Iv)

/-- `busy_map[name] = v`: Python dict assignment replaces the value in place
when the key is present and appends otherwise. -/
def dictInsert (m : BusyMap) (k : String) (v : List Iv) : BusyMap :=
  if m.any (fun kv => kv.1 = k) then
    m.map (fun kv => if kv.1 = k then (k, v) else kv)
  else m ++ [(k, v)]

/-- The inner event loop of `normalize_calendars`: parse each event's start
and end with `strptime("%H:%M")` and anchor both to `today`
(`datetime.combine(datetime.today().date(), ...)`); the first `ValueError`
propagates. -/
def parseCal (today : Nat) : List (String × String) → Except String (List Iv)
  | [] => .ok []
  | ev :: rest => do
    let st ← parseHM ev.1
    let en ← parseHM ev.2
    let tail ← parseCal today rest
    .ok ((today * 1440 + st, today * 1440 + en) :: tail)

/-- The profile loop of `normalize_calendars`, threading the busy map being
built. -/
def normAux (today : Nat) (acc : BusyMap) : List Profile → Except String BusyMap
  | [] => .ok acc
  | p :: rest => do
    let raw ← parseCal today (p.2.getD [])
    normAux today (dictInsert acc p.1 (merge raw)) rest

/-- `normalize_calendars(profiles)`: raw profiles to merged busy map.
`today` is the ambient `datetime.today().date()` the code reads. -/
def normalize_calendars (profiles : List Profile) (today : Nat) :
    Except String BusyMap :=
  normAux today [] profiles

/-- `find_common_free(busy_map)`: invert every participant's busy list
against the hard-coded window `00:00`..`23:59` on the ambient date, then
left-fold `intersect` (`functools.reduce`) over the free lists. -/
def find_common_free (busy_map : BusyMap) (today : Nat) : List Iv :=
  let window : Iv := (today * 1440, today * 1440 + 1439)
  let free_lists := busy_map.map (fun kv => invert kv.2 window)
  match free_lists with
  | [] => []
  | f :: fs => fs.foldl intersect f

/-- Module global `ACCEPTABLE_START = time(6, 0)`, the default lower bound
of `get_acceptable_times`. -/
def ACCEPTABLE_START : Nat := 6 * 60

/-- Module global `ACCEPTABLE_END = time(22, 0)`, the default upper bound of
`get_acceptable_times`. -/
def ACCEPTABLE_END : Nat := 22 * 60

/-- `get_acceptable_times(common_free, start, end)`: keep the intervals
whose time-of-day start is at least `s` and whose time-of-day end is at most
`e` (`datetime.time()` extraction is `% 1440`). -/
def get_acceptable_times : List Iv → Nat → Nat → List Iv
  | [], _, _ => []
  | iv :: rest, s, e =>
    if s ≤ iv.1 % 1440 ∧ iv.2 % 1440 ≤ e then
      iv :: get_acceptable_times rest s e
    else get_acceptable_times rest s e

/-- A point instant lies in some interval of the list, with half-open
interval semantics. -/
def memPt (t : Nat) (l : List Iv) : Prop := ∃ iv ∈ l, iv.1 ≤ t ∧ t < iv.2

instance (t : Nat) (l : List Iv) : Decidable (memPt t l) :=
  List.decidableBEx _ l

/-- A canonical interval list: every interval is non-degenerate and
consecutive intervals neither overlap nor touch. -/
def Canon (l : List Iv) : Prop :=
  (∀ iv ∈ l, iv.1 < iv.2) ∧ l.Chain' gap

instance : DecidableRel gap := fun p q => Nat.decLt p.2 q.1

/-- Boolean check of the chain part of `Canon`, for kernel computation. -/
def gapChainB : List Iv → Bool
  | [] => true
  | [_] => true
  | p :: q :: rest => decide (p.2 < q.1) && gapChainB (q :: rest)

theorem gapChainB_iff : ∀ l : List Iv, gapChainB l = true ↔ l.Chain' gap
  | [] => by simp [gapChainB]
  | [_] => by simp [gapChainB]
  | p :: q :: rest => by
    simp [gapChainB, List.chain'_cons, gapChainB_iff (q :: rest), gap,
      and_comm]

instance (l : List Iv) : Decidable (Canon l) :=
  decidable_of_iff
    (((l.all fun iv => decide (iv.1 < iv.2)) && gapChainB l) = true) (by
      rw [Bool.and_eq_true, List.all_eq_true, gapChainB_iff]
      unfold Canon
      simp)

/-! ### Point-membership and canonicity helpers -/

@[simp]
theorem memPt_nil (t : Nat) : ¬ memPt t [] := by
  simp [memPt]

@[simp]
theorem memPt_cons (t : Nat) (iv : Iv) (l : List Iv) :
    memPt t (iv :: l) ↔ (iv.1 ≤ t ∧ t < iv.2) ∨ memPt t l := by
  simp [memPt]

@[simp]
theorem memPt_append (t : Nat) (l1 l2 : List Iv) :
    memPt t (l1 ++ l2) ↔ memPt t l1 ∨ memPt t l2 := by
  simp [memPt, or_and_right, exists_or]

theorem Canon.tail {x : Iv} {xs : List Iv} (h : Canon (x :: xs)) : Canon xs :=
  ⟨fun iv hiv => h.1 iv (List.mem_cons_of_mem x hiv), h.2.tail⟩

theorem Canon.head_lt {x : Iv} {xs : List Iv} (h : Canon (x :: xs)) :
    ∀ iv ∈ xs, x.2 < iv.1 := by
  induction xs generalizing x with
  | nil => intro iv hiv; cases hiv
  | cons y rest ih =>
    intro iv hiv
    have hxy : gap x y := (List.chain'_cons.1 h.2).1
    rcases List.mem_cons.1 hiv with rfl | hiv'
    · exact hxy
    · have hy : y.1 < y.2 := h.1 y (by simp)
      have := ih h.tail iv hiv'
      exact lt_trans (lt_trans hxy hy) this

theorem canon_cons {x : Iv} {xs : List Iv} (hx : x.1 < x.2)
    (hgap : ∀ iv ∈ xs, x.2 < iv.1) (hxs : Canon xs) : Canon (x :: xs) := by
  refine ⟨fun iv hiv => ?_, ?_⟩
  · rcases List.mem_cons.1 hiv with rfl | h'
    · exact hx
    · exact hxs.1 iv h'
  · refine List.chain'_cons'.2 ⟨fun y hy => ?_, hxs.2⟩
    exact hgap y (List.mem_of_mem_head? hy)

/-! ### merge: canonical form and idempotence -/

theorem mergeLoop_spec :
    ∀ (l : List Iv) (acc : Iv), (∀ p ∈ l, acc.1 ≤ p.1) →
      l.Sorted startLe →
      ∃ e tl, mergeLoop acc l = (acc.1, e) :: tl ∧
        List.Sorted startLe ((acc.1, e) :: tl) ∧
        List.Chain' gap ((acc.1, e) :: tl) := by
  intro l
  induction l with
  | nil =>
    intro acc _ _
    exact ⟨acc.2, [], rfl, List.sorted_singleton _, List.chain'_singleton _⟩
  | cons iv rest ih =>
    intro acc hlb hs
    have hrest_sorted : rest.Sorted startLe := (List.sorted_cons.1 hs).2
    have hrest_lb : ∀ p ∈ rest, iv.1 ≤ p.1 := (List.sorted_cons.1 hs).1
    by_cases hmerge : iv.1 ≤ acc.2
    · have hlb' : ∀ p ∈ rest, (acc.1, max acc.2 iv.2).1 ≤ p.1 := by
        intro p hp
        exact le_trans (hlb iv (by simp)) (hrest_lb p hp)
      obtain ⟨e, tl, heq, hsort, hchain⟩ :=
        ih (acc.1, max acc.2 iv.2) hlb' hrest_sorted
      refine ⟨e, tl, ?_, hsort, hchain⟩
      simpa [mergeLoop, hmerge] using heq
    · obtain ⟨e, tl, heq, hsort, hchain⟩ := ih iv hrest_lb hrest_sorted
      refine ⟨acc.2, (iv.1, e) :: tl, ?_, ?_, ?_⟩
      · simp [mergeLoop, hmerge, heq]
      · refine List.sorted_cons.2 ⟨?_, hsort⟩
        intro b hb
        rcases List.mem_cons.1 hb with rfl | hb'
        · exact hlb iv (by simp)
        · have h1 : startLe (iv.1, e) b :=
            List.rel_of_sorted_cons hsort b hb'
          exact le_trans (hlb iv (by simp)) h1
      · refine List.chain'_cons.2 ⟨?_, hchain⟩
        exact lt_of_not_le hmerge

theorem merge_sorted_chain (X : List Iv) :
    List.Sorted startLe (merge X) ∧ List.Chain' gap (merge X) := by
  cases hsort : sortByStart X with
  | nil =>
    have h : merge X = [] := by unfold merge; rw [hsort]
    rw [h]
    exact ⟨List.sorted_nil, List.chain'_nil⟩
  | cons x xs =>
    have h : merge X = mergeLoop x xs := by unfold merge; rw [hsort]
    have hs : (x :: xs).Sorted startLe := by
      rw [← hsort]
      exact List.sorted_insertionSort startLe X
    obtain ⟨e, tl, heq, hsorted, hchain⟩ :=
      mergeLoop_spec xs x (List.sorted_cons.1 hs).1 (List.sorted_cons.1 hs).2
    rw [h, heq]
    exact ⟨hsorted, hchain⟩

theorem sorted_chain'_pairwise :
    ∀ {l : List Iv}, List.Sorted startLe l → List.Chain' gap l →
      List.Pairwise gap l := by
  intro l
  induction l with
  | nil => intro _ _; exact List.Pairwise.nil
  | cons a l ih =>
    intro hs hc
    have hs' : l.Sorted startLe := (List.sorted_cons.1 hs).2
    have hc' : l.Chain' gap := (List.chain'_cons'.1 hc).2
    refine List.pairwise_cons.2 ⟨?_, ih hs' hc'⟩
    intro b hb
    cases l with
    | nil => cases hb
    | cons c l' =>
      have hac : gap a c := (List.chain'_cons.1 hc).1
      rcases List.mem_cons.1 hb with rfl | hb'
      · exact hac
      · exact lt_of_lt_of_le hac ((List.sorted_cons.1 hs').1 b hb')

theorem mergeLoop_id :
    ∀ (l : List Iv) (acc : Iv), List.Chain' gap (acc :: l) →
      mergeLoop acc l = acc :: l := by
  intro l
  induction l with
  | nil => intro acc _; rfl
  | cons y rest ih =>
    intro acc hc
    have h1 : gap acc y := (List.chain'_cons.1 hc).1
    have h2 : ¬ y.1 ≤ acc.2 := not_le.2 h1
    simp [mergeLoop, h2, ih y (List.chain'_cons.1 hc).2]

theorem merge_eq_self {l : List Iv} (hs : List.Sorted startLe l)
    (hc : List.Chain' gap l) : merge l = l := by
  have hsort : sortByStart l = l := hs.insertionSort_eq
  unfold merge
  rw [hsort]
  cases l with
  | nil => rfl
  | cons x xs => exact mergeLoop_id xs x hc

theorem memPt_mono_lb {x : Iv} {xs : List Iv} (h : Canon (x :: xs)) {t : Nat}
    (ht : memPt t xs) : x.2 < t := by
  obtain ⟨iv, hiv, h1, _⟩ := ht
  exact lt_of_lt_of_le (h.head_lt iv hiv) h1

/-! ### intersect: set semantics and canonicity -/

theorem intersectFuel_mem :
    ∀ (n : Nat) (a b : List Iv), a.length + b.length ≤ n →
      Canon a → Canon b →
      ∀ t, memPt t (intersectFuel n a b) ↔ memPt t a ∧ memPt t b := by
  intro n
  induction n with
  | zero =>
    intro a b hlen _ _ t
    have ha : a = [] := List.length_eq_zero.1 (by omega)
    subst ha
    simp [intersectFuel]
  | succ n ih =>
    intro a b hlen hca hcb t
    match a, b with
    | [], b => simp [intersectFuel]
    | x :: xs, [] => simp [intersectFuel]
    | x :: xs, y :: ys =>
      have hxs := hca.tail
      have hys := hcb.tail
      have hx2 : x.1 < x.2 := hca.1 x (by simp)
      have hy2 : y.1 < y.2 := hcb.1 y (by simp)
      have hmx : memPt t xs → x.2 < t := memPt_mono_lb hca
      have hmy : memPt t ys → y.2 < t := memPt_mono_lb hcb
      simp only [List.length_cons] at hlen
      by_cases hadv : x.2 < y.2
      · have ihx := ih xs (y :: ys) (by simp; omega) hxs hcb t
        by_cases hse : max x.1 y.1 < min x.2 y.2 <;>
          simp only [intersectFuel, hadv, hse, if_true, if_false, ite_true,
            ite_false, memPt_cons] <;>
          rw [ihx] <;>
          simp only [memPt_cons]
        · constructor
          · rintro (⟨h1, h2⟩ | ⟨hxr, hyy⟩)
            · exact ⟨Or.inl ⟨by omega, by omega⟩, Or.inl ⟨by omega, by omega⟩⟩
            · exact ⟨Or.inr hxr, hyy⟩
          · rintro ⟨⟨hx1, hx2'⟩ | hxr, ⟨hy1, hy2'⟩ | hyr⟩
            · exact Or.inl ⟨by omega, by omega⟩
            · exact absurd (hmy hyr) (by omega)
            · exact Or.inr ⟨hxr, Or.inl ⟨hy1, hy2'⟩⟩
            · exact Or.inr ⟨hxr, Or.inr hyr⟩
        · constructor
          · rintro ⟨hxr, hyy⟩
            exact ⟨Or.inr hxr, hyy⟩
          · rintro ⟨⟨hx1, hx2'⟩ | hxr, ⟨hy1, hy2'⟩ | hyr⟩
            · exact absurd hse (by simp; omega)
            · exact absurd (hmy hyr) (by omega)
            · exact ⟨hxr, Or.inl ⟨hy1, hy2'⟩⟩
            · exact ⟨hxr, Or.inr hyr⟩
      · have ihy := ih (x :: xs) ys (by simp; omega) hca hys t
        by_cases hse : max x.1 y.1 < min x.2 y.2 <;>
          simp only [intersectFuel, hadv, hse, if_true, if_false, ite_true,
            ite_false, memPt_cons] <;>
          rw [ihy] <;>
          simp only [memPt_cons]
        · constructor
          · rintro (⟨h1, h2⟩ | ⟨hxx, hyr⟩)
            · exact ⟨Or.inl ⟨by omega, by omega⟩, Or.inl ⟨by omega, by omega⟩⟩
            · exact ⟨hxx, Or.inr hyr⟩
          · rintro ⟨⟨hx1, hx2'⟩ | hxr, ⟨hy1, hy2'⟩ | hyr⟩
            · exact Or.inl ⟨by omega, by omega⟩
            · exact Or.inr ⟨Or.inl ⟨hx1, hx2'⟩, hyr⟩
            · exact absurd (hmx hxr) (by omega)
            · exact Or.inr ⟨Or.inr hxr, hyr⟩
        · constructor
          · rintro ⟨hxx, hyr⟩
            exact ⟨hxx, Or.inr hyr⟩
          · rintro ⟨⟨hx1, hx2'⟩ | hxr, ⟨hy1, hy2'⟩ | hyr⟩
            · exact absurd hse (by simp; omega)
            · exact ⟨Or.inl ⟨hx1, hx2'⟩, hyr⟩
            · exact absurd (hmx hxr) (by omega)
            · exact ⟨Or.inr hxr, hyr⟩

theorem intersectFuel_canon :
    ∀ (n : Nat) (a b : List Iv), a.length + b.length ≤ n →
      Canon a → Canon b →
      Canon (intersectFuel n a b) ∧
        ∀ iv ∈ intersectFuel n a b,
          (∃ p ∈ a, p.1 ≤ iv.1) ∧ (∃ q ∈ b, q.1 ≤ iv.1) := by
  intro n
  induction n with
  | zero =>
    intro a b hlen _ _
    have ha : a = [] := List.length_eq_zero.1 (by omega)
    subst ha
    simp [intersectFuel, Canon]
  | succ n ih =>
    intro a b hlen hca hcb
    match a, b with
    | [], b => simp [intersectFuel, Canon]
    | x :: xs, [] => simp [intersectFuel, Canon]
    | x :: xs, y :: ys =>
      have hxs := hca.tail
      have hys := hcb.tail
      have hxlt := hca.head_lt
      have hylt := hcb.head_lt
      simp only [List.length_cons] at hlen
      by_cases hadv : x.2 < y.2
      · obtain ⟨hrc, hrb⟩ := ih xs (y :: ys) (by simp; omega) hxs hcb
        have hgapr : ∀ iv ∈ intersectFuel n xs (y :: ys),
            min x.2 y.2 < iv.1 := by
          intro iv hiv
          obtain ⟨⟨p, hp, hp1⟩, _⟩ := hrb iv hiv
          have := hxlt p hp
          omega
        have hwk : ∀ iv ∈ intersectFuel n xs (y :: ys),
            (∃ p ∈ x :: xs, p.1 ≤ iv.1) ∧ (∃ q ∈ y :: ys, q.1 ≤ iv.1) := by
          intro iv hiv
          obtain ⟨⟨p, hp, hp1⟩, hq⟩ := hrb iv hiv
          exact ⟨⟨p, List.mem_cons_of_mem x hp, hp1⟩, hq⟩
        by_cases hse : max x.1 y.1 < min x.2 y.2 <;>
          simp only [intersectFuel, hadv, hse, if_true, if_false, ite_true,
            ite_false]
        · refine ⟨canon_cons hse hgapr hrc, ?_⟩
          intro iv hiv
          rcases List.mem_cons.1 hiv with rfl | hiv'
          · exact ⟨⟨x, by simp, by simp⟩, ⟨y, by simp, by simp⟩⟩
          · exact hwk iv hiv'
        · exact ⟨hrc, hwk⟩
      · obtain ⟨hrc, hrb⟩ := ih (x :: xs) ys (by simp; omega) hca hys
        have hgapr : ∀ iv ∈ intersectFuel n (x :: xs) ys,
            min x.2 y.2 < iv.1 := by
          intro iv hiv
          obtain ⟨_, ⟨q, hq, hq1⟩⟩ := hrb iv hiv
          have := hylt q hq
          omega
        have hwk : ∀ iv ∈ intersectFuel n (x :: xs) ys,
            (∃ p ∈ x :: xs, p.1 ≤ iv.1) ∧ (∃ q ∈ y :: ys, q.1 ≤ iv.1) := by
          intro iv hiv
          obtain ⟨hp, ⟨q, hq, hq1⟩⟩ := hrb iv hiv
          exact ⟨hp, ⟨q, List.mem_cons_of_mem y hq, hq1⟩⟩
        by_cases hse : max x.1 y.1 < min x.2 y.2 <;>
          simp only [intersectFuel, hadv, hse, if_true, if_false, ite_true,
            ite_false]
        · refine ⟨canon_cons hse hgapr hrc, ?_⟩
          intro iv hiv
          rcases List.mem_cons.1 hiv with rfl | hiv'
          · exact ⟨⟨x, by simp, by simp⟩, ⟨y, by simp, by simp⟩⟩
          · exact hwk iv hiv'
        · exact ⟨hrc, hwk⟩

theorem intersect_mem {a b : List Iv} (hca : Canon a) (hcb : Canon b)
    (t : Nat) : memPt t (intersect a b) ↔ memPt t a ∧ memPt t b :=
  intersectFuel_mem (a.length + b.length) a b le_rfl hca hcb t

theorem intersect_canon {a b : List Iv} (hca : Canon a) (hcb : Canon b) :
    Canon (intersect a b) :=
  (intersectFuel_canon (a.length + b.length) a b le_rfl hca hcb).1

/-! ### invert: complement semantics and canonicity -/

theorem invertLoop_mem :
    ∀ (busy : List Iv) (c w1 : Nat), Canon busy →
      (∀ iv ∈ busy, c ≤ iv.1 ∧ iv.2 ≤ w1) →
      ∀ t, memPt t (invertLoop w1 c busy) ↔
        c ≤ t ∧ t < w1 ∧ ¬ memPt t busy := by
  intro busy
  induction busy with
  | nil =>
    intro c w1 _ _ t
    by_cases h : c < w1 <;> simp [invertLoop, h] <;> omega
  | cons iv rest ih =>
    intro c w1 hcanon hin t
    have hiv1 : c ≤ iv.1 := (hin iv (by simp)).1
    have hiv2 : iv.2 ≤ w1 := (hin iv (by simp)).2
    have hlt : iv.1 < iv.2 := hcanon.1 iv (by simp)
    have hmax : max c iv.2 = iv.2 := by omega
    have hrest_in : ∀ p ∈ rest, iv.2 ≤ p.1 ∧ p.2 ≤ w1 := by
      intro p hp
      exact ⟨le_of_lt (hcanon.head_lt p hp), (hin p (by simp [hp])).2⟩
    have ihEq := ih iv.2 w1 hcanon.tail hrest_in t
    have hmr : memPt t rest → iv.2 < t := memPt_mono_lb hcanon
    simp only [invertLoop, hmax, memPt_append, memPt_cons]
    constructor
    · rintro (hL | hR)
      · have hct : c < iv.1 ∧ c ≤ t ∧ t < iv.1 := by
          by_cases hcc : c < iv.1
          · simp [hcc, memPt] at hL
            exact ⟨hcc, hL⟩
          · simp [hcc] at hL
        refine ⟨hct.2.1, by omega, ?_⟩
        rintro (⟨h1, h2⟩ | hrm)
        · omega
        · have := hmr hrm
          omega
      · rw [ihEq] at hR
        refine ⟨by omega, hR.2.1, ?_⟩
        rintro (⟨h1, h2⟩ | hrm)
        · omega
        · exact hR.2.2 hrm
    · rintro ⟨h1, h2, h3⟩
      by_cases ht : t < iv.1
      · left
        have hcc : c < iv.1 := by omega
        simp [hcc, memPt]
        omega
      · right
        rw [ihEq]
        push_neg at ht
        refine ⟨?_, h2, fun hrm => h3 (Or.inr hrm)⟩
        by_cases h4 : t < iv.2
        · exact absurd (Or.inl ⟨ht, h4⟩) h3
        · omega

theorem invertLoop_canon :
    ∀ (busy : List Iv) (c w1 : Nat), Canon busy →
      (∀ iv ∈ busy, c ≤ iv.1 ∧ iv.2 ≤ w1) →
      Canon (invertLoop w1 c busy) ∧
        ∀ iv ∈ invertLoop w1 c busy, c ≤ iv.1 := by
  intro busy
  induction busy with
  | nil =>
    intro c w1 _ _
    by_cases h : c < w1 <;> simp [invertLoop, h, Canon]
  | cons iv rest ih =>
    intro c w1 hcanon hin
    have hiv1 : c ≤ iv.1 := (hin iv (by simp)).1
    have hiv2 : iv.2 ≤ w1 := (hin iv (by simp)).2
    have hlt : iv.1 < iv.2 := hcanon.1 iv (by simp)
    have hmax : max c iv.2 = iv.2 := by omega
    have hrest_in : ∀ p ∈ rest, iv.2 ≤ p.1 ∧ p.2 ≤ w1 := by
      intro p hp
      exact ⟨le_of_lt (hcanon.head_lt p hp), (hin p (by simp [hp])).2⟩
    obtain ⟨hrc, hrb⟩ := ih iv.2 w1 hcanon.tail hrest_in
    simp only [invertLoop, hmax]
    by_cases hcc : c < iv.1
    · simp only [hcc, if_true, ite_true, List.singleton_append]
      refine ⟨canon_cons hcc ?_ hrc, ?_⟩
      · intro p hp
        have := hrb p hp
        omega
      · intro p hp
        rcases List.mem_cons.1 hp with rfl | hp'
        · exact le_rfl
        · have := hrb p hp'
          omega
    · simp only [hcc, if_false, ite_false, List.nil_append]
      refine ⟨hrc, ?_⟩
      intro p hp
      have := hrb p hp
      omega

theorem invert_mem {busy : List Iv} {w : Iv} (hc : Canon busy)
    (hin : ∀ iv ∈ busy, w.1 ≤ iv.1 ∧ iv.2 ≤ w.2) (t : Nat) :
    memPt t (invert busy w) ↔ w.1 ≤ t ∧ t < w.2 ∧ ¬ memPt t busy :=
  invertLoop_mem busy w.1 w.2 hc hin t

theorem invert_canon {busy : List Iv} {w : Iv} (hc : Canon busy)
    (hin : ∀ iv ∈ busy, w.1 ≤ iv.1 ∧ iv.2 ≤ w.2) :
    Canon (invert busy w) :=
  (invertLoop_canon busy w.1 w.2 hc hin).1

/-! ### the intersection fold of find_common_free -/

theorem foldl_intersect_mem :
    ∀ (fs : List (List Iv)) (f : List Iv), Canon f →
      (∀ l ∈ fs, Canon l) →
      Canon (fs.foldl intersect f) ∧
        ∀ t, memPt t (fs.foldl intersect f) ↔
          memPt t f ∧ ∀ l ∈ fs, memPt t l := by
  intro fs
  induction fs with
  | nil =>
    intro f hf _
    simp [hf]
  | cons g rest ih =>
    intro f hf hall
    have hg : Canon g := hall g (by simp)
    have hfg : Canon (intersect f g) := intersect_canon hf hg
    obtain ⟨hc, hmem⟩ := ih (intersect f g) hfg
      (fun l hl => hall l (List.mem_cons_of_mem g hl))
    refine ⟨by simpa using hc, ?_⟩
    intro t
    rw [List.foldl_cons, hmem t, intersect_mem hf hg t]
    constructor
    · rintro ⟨⟨h1, h2⟩, h3⟩
      refine ⟨h1, ?_⟩
      intro l hl
      rcases List.mem_cons.1 hl with rfl | hl'
      · exact h2
      · exact h3 l hl'
    · rintro ⟨h1, h2⟩
      exact ⟨⟨h1, h2 g (by simp)⟩, fun l hl => h2 l (List.mem_cons_of_mem g hl)⟩

/-! ### normalize_calendars: error propagation and dict behaviour -/

theorem parseCal_ok {today : Nat} :
    ∀ {cal : List (String × String)} {v : List Iv},
      parseCal today cal = .ok v →
      ∀ ev ∈ cal, (∃ a, parseHM ev.1 = .ok a) ∧ ∃ b, parseHM ev.2 = .ok b := by
  intro cal
  induction cal with
  | nil => intro v _ ev hev; cases hev
  | cons ev rest ih =>
    intro v hok ev' hev'
    simp only [parseCal, bind, Except.bind] at hok
    cases h1 : parseHM ev.1 with
    | error e => rw [h1] at hok; cases hok
    | ok a =>
      rw [h1] at hok
      cases h2 : parseHM ev.2 with
      | error e => rw [h2] at hok; cases hok
      | ok b =>
        rw [h2] at hok
        cases h3 : parseCal today rest with
        | error e => rw [h3] at hok; cases hok
        | ok tl =>
          rcases List.mem_cons.1 hev' with rfl | hmem
          · exact ⟨⟨a, h1⟩, ⟨b, h2⟩⟩
          · exact ih h3 ev' hmem

theorem normAux_ok {today : Nat} :
    ∀ {l : List Profile} {acc m : BusyMap},
      normAux today acc l = .ok m →
      ∀ p ∈ l, ∃ v, parseCal today (p.2.getD []) = .ok v := by
  intro l
  induction l with
  | nil => intro acc m _ p hp; cases hp
  | cons p rest ih =>
    intro acc m hok q hq
    simp only [normAux, bind, Except.bind] at hok
    cases h1 : parseCal today (p.2.getD []) with
    | error e => rw [h1] at hok; cases hok
    | ok raw =>
      rw [h1] at hok
      rcases List.mem_cons.1 hq with rfl | hmem
      · exact ⟨raw, h1⟩
      · exact ih hok q hmem

theorem normAux_append {today : Nat} :
    ∀ (l1 l2 : List Profile) (acc : BusyMap),
      normAux today acc (l1 ++ l2) =
        (normAux today acc l1).bind (fun m => normAux today m l2) := by
  intro l1
  induction l1 with
  | nil => intro l2 acc; rfl
  | cons p rest ih =>
    intro l2 acc
    simp only [List.cons_append, normAux, bind, Except.bind]
    cases h1 : parseCal today (p.2.getD []) with
    | error e => rfl
    | ok raw => exact ih l2 (dictInsert acc p.1 (merge raw))

theorem dictInsert_mem_self (m : BusyMap) (k : String) (v : List Iv) :
    (k, v) ∈ dictInsert m k v := by
  unfold dictInsert
  by_cases h : m.any (fun kv => kv.1 = k)
  · simp only [h, if_true, ite_true]
    obtain ⟨kv, hkv, hk⟩ := List.any_eq_true.1 h
    refine List.mem_map.2 ⟨kv, hkv, ?_⟩
    simp only [decide_eq_true_eq] at hk
    simp [hk]
  · simp [h]

theorem dictInsert_mem_preserve {m : BusyMap} {k : String} {v : List Iv}
    (hmem : (k, v) ∈ m) {k' : String} (hne : k' ≠ k) (v' : List Iv) :
    (k, v) ∈ dictInsert m k' v' := by
  unfold dictInsert
  by_cases h : m.any (fun kv => kv.1 = k')
  · simp only [h, if_true, ite_true]
    refine List.mem_map.2 ⟨(k, v), hmem, ?_⟩
    simp [hne.symm]
  · simp [h, hmem]

theorem normAux_mem_preserve {today : Nat} {k : String} {v : List Iv} :
    ∀ {l : List Profile} {acc m : BusyMap},
      (k, v) ∈ acc → (∀ p ∈ l, p.1 ≠ k) →
      normAux today acc l = .ok m → (k, v) ∈ m := by
  intro l
  induction l with
  | nil =>
    intro acc m hmem _ hok
    cases hok
    exact hmem
  | cons p rest ih =>
    intro acc m hmem hne hok
    simp only [normAux, bind, Except.bind] at hok
    cases h1 : parseCal today (p.2.getD []) with
    | error e => rw [h1] at hok; cases hok
    | ok raw =>
      rw [h1] at hok
      refine ih ?_ (fun q hq => hne q (List.mem_cons_of_mem p hq)) hok
      exact dictInsert_mem_preserve hmem (hne p (by simp)) (merge raw)

/-! ### Claim theorems -/

/-- C1: the code contradicts its own docstrings ("window provides that date
context", "All events are mapped onto window[0].date()"): there is no Window
parameter, the reference date is read from the ambient clock
(`datetime.today().date()`) inside both `normalize_calendars` and
`find_common_free`, so identical explicit inputs give different outputs when
the ambient date differs. -/
theorem c1_ambient_clock_dependence :
    normalize_calendars [("Alice", some [("09:00", "10:00")])] 0 =
      .ok [("Alice", [(540, 600)])] ∧
    normalize_calendars [("Alice", some [("09:00", "10:00")])] 1 =
      .ok [("Alice", [(1980, 2040)])] ∧
    ([("Alice", [(540, 600)])] : BusyMap) ≠ [("Alice", [(1980, 2040)])] ∧
    find_common_free [("Alice", [])] 0 = [(0, 1439)] ∧
    find_common_free [("Alice", [])] 1 = [(1440, 2879)] ∧
    ([(0, 1439)] : List Iv) ≠ [(1440, 2879)] :=
  ⟨rfl, rfl, by decide, rfl, rfl, by decide⟩

/-- C2 counterexample: on the malformed event start "25:61" the error
message raised by `strptime` is exactly the same whether the participant is
named "Alice" or "Bob", so the signalled parse error does not report the
participant identifier (it does carry the offending raw value). -/
theorem c2_counterexample :
    normalize_calendars [("Alice", some [("25:61", "13:00")])] 0 =
      .error "time data 25:61 does not match format %H:%M" ∧
    normalize_calendars [("Bob", some [("25:61", "13:00")])] 0 =
      .error "time data 25:61 does not match format %H:%M" ∧
    "Alice" ≠ "Bob" :=
  ⟨rfl, rfl, by decide⟩

/-- C2 (amended): whenever any profile holds an event whose start or end
fails to parse as %H:%M, `normalize_calendars` signals a parse error and
returns no partial busy map; the error carries the raw value (for a format
mismatch) but not the participant identifier. -/
theorem c2_parse_error_no_partial_map (profiles : List Profile) (today : Nat)
    (h : ∃ p ∈ profiles, ∃ ev ∈ p.2.getD [],
      isErr (parseHM ev.1) ∨ isErr (parseHM ev.2)) :
    ∃ msg, normalize_calendars profiles today = .error msg := by
  cases hres : normalize_calendars profiles today with
  | error msg => exact ⟨msg, rfl⟩
  | ok m =>
    exfalso
    obtain ⟨p, hp, ev, hev, hbad⟩ := h
    obtain ⟨v, hv⟩ := normAux_ok hres p hp
    obtain ⟨⟨a, ha⟩, ⟨b, hb⟩⟩ := parseCal_ok hv ev hev
    rcases hbad with h1 | h2
    · rw [ha] at h1; cases h1
    · rw [hb] at h2; cases h2

/-- Witness for C2 (amended) at the spec's Scenario D input. -/
theorem c2_parse_error_no_partial_map_witness :
    (∃ p ∈ ([("Alice", some [("25:61", "13:00")])] : List Profile),
      ∃ ev ∈ p.2.getD [], isErr (parseHM ev.1) ∨ isErr (parseHM ev.2)) ∧
    ∃ msg, normalize_calendars [("Alice", some [("25:61", "13:00")])] 0 =
      .error msg :=
  ⟨by decide, c2_parse_error_no_partial_map _ 0 (by decide)⟩

/-- C3 counterexample: in Scenario A the common free intervals before
filtering also contain 00:00..09:00 (both participants are free then), so
the claimed set {13:00..14:00, 15:00..23:59} is not exact: the point 05:00
(= 300 minutes) is commonly free but lies in neither claimed interval. -/
theorem c3_counterexample :
    normalize_calendars
        [("Alice", some [("12:00", "13:00"), ("14:00", "15:00")]),
         ("Bob", some [("09:00", "13:00")])] 0 =
      .ok [("Alice", [(720, 780), (840, 900)]), ("Bob", [(540, 780)])] ∧
    find_common_free
        [("Alice", [(720, 780), (840, 900)]), ("Bob", [(540, 780)])] 0 =
      [(0, 540), (780, 840), (900, 1439)] ∧
    memPt 300 [(0, 540), (780, 840), (900, 1439)] ∧
    ¬ memPt 300 [(780, 840), (900, 1439)] :=
  ⟨rfl, rfl, by decide, by decide⟩

/-- C3 (amended): Scenario A end to end — the common free intervals before
filtering are exactly {00:00..09:00, 13:00..14:00, 15:00..23:59}, and the
acceptability filter with range 06:00..22:00 keeps exactly {13:00..14:00},
dropping both straddling intervals whole. -/
theorem c3_scenario_a :
    normalize_calendars
        [("Alice", some [("12:00", "13:00"), ("14:00", "15:00")]),
         ("Bob", some [("09:00", "13:00")])] 0 =
      .ok [("Alice", [(720, 780), (840, 900)]), ("Bob", [(540, 780)])] ∧
    find_common_free
        [("Alice", [(720, 780), (840, 900)]), ("Bob", [(540, 780)])] 0 =
      [(0, 540), (780, 840), (900, 1439)] ∧
    get_acceptable_times [(0, 540), (780, 840), (900, 1439)]
        ACCEPTABLE_START ACCEPTABLE_END = [(780, 840)] :=
  ⟨rfl, rfl, rfl⟩

/-- C4 counterexample: for the empty busy map the claimed equivalence fails
at the window start instant t = 0 on date 0: t lies in the window and
vacuously in no participant's busy list, yet the result of
`find_common_free` is empty. -/
theorem c4_counterexample :
    find_common_free ([] : BusyMap) 0 = [] ∧
    ¬ (memPt 0 (find_common_free ([] : BusyMap) 0) ↔
        (0 * 1440 ≤ 0 ∧ 0 < 0 * 1440 + 1439 ∧
          ∀ kv ∈ ([] : BusyMap), ¬ memPt 0 kv.2)) :=
  ⟨rfl, by decide⟩

/-- C4 (amended): fold correctness of `find_common_free` for a NONEMPTY busy
map whose lists are canonical and contained in the window: t lies in the
result iff t lies in the window and in no participant's busy list; the
empty busy map yields the empty result, and a single participant with an
empty busy list gets the full window. -/
theorem c4_fold_correctness (bm : BusyMap) (d : Nat)
    (h : ∀ kv ∈ bm, Canon kv.2 ∧
      ∀ iv ∈ kv.2, d * 1440 ≤ iv.1 ∧ iv.2 ≤ d * 1440 + 1439) :
    (bm = [] → find_common_free bm d = []) ∧
    (bm ≠ [] → ∀ t, memPt t (find_common_free bm d) ↔
      (d * 1440 ≤ t ∧ t < d * 1440 + 1439 ∧ ∀ kv ∈ bm, ¬ memPt t kv.2)) ∧
    (∀ name, find_common_free [(name, [])] d =
      [(d * 1440, d * 1440 + 1439)]) := by
  refine ⟨fun hbm => by rw [hbm]; rfl, ?_, ?_⟩
  · intro hne t
    cases bm with
    | nil => exact absurd rfl hne
    | cons kv rest =>
      have hkv := h kv (by simp)
      have hw : Canon (invert kv.2 (d * 1440, d * 1440 + 1439)) :=
        invert_canon hkv.1 hkv.2
      have hfs : ∀ l ∈ rest.map
          (fun kv => invert kv.2 (d * 1440, d * 1440 + 1439)), Canon l := by
        intro l hl
        obtain ⟨kv', hkv', rfl⟩ := List.mem_map.1 hl
        have h2 := h kv' (List.mem_cons_of_mem kv hkv')
        exact invert_canon h2.1 h2.2
      have hfold := (foldl_intersect_mem _ _ hw hfs).2 t
      have hfcf : find_common_free (kv :: rest) d =
          (rest.map (fun kv => invert kv.2 (d * 1440, d * 1440 + 1439))).foldl
            intersect (invert kv.2 (d * 1440, d * 1440 + 1439)) := rfl
      rw [hfcf, hfold, invert_mem hkv.1 hkv.2 t]
      constructor
      · rintro ⟨⟨h1, h2, h3⟩, h4⟩
        refine ⟨h1, h2, ?_⟩
        intro kv' hkv'
        rcases List.mem_cons.1 hkv' with rfl | hm
        · exact h3
        · have h5 := h4 _ (List.mem_map.2 ⟨kv', hm, rfl⟩)
          have h6 := h kv' (List.mem_cons_of_mem kv hm)
          exact ((invert_mem h6.1 h6.2 t).1 h5).2.2
      · rintro ⟨h1, h2, h3⟩
        refine ⟨⟨h1, h2, h3 kv (by simp)⟩, ?_⟩
        intro l hl
        obtain ⟨kv', hm, rfl⟩ := List.mem_map.1 hl
        have h6 := h kv' (List.mem_cons_of_mem kv hm)
        exact (invert_mem h6.1 h6.2 t).2
          ⟨h1, h2, h3 kv' (List.mem_cons_of_mem kv hm)⟩
  · intro name
    show (if d * 1440 < d * 1440 + 1439 then
        [(d * 1440, d * 1440 + 1439)] else []) = _
    rw [if_pos (by omega)]

/-- Witness for C4 (amended) at a concrete one-participant busy map. -/
theorem c4_fold_correctness_witness :
    (∀ kv ∈ ([("Alice", [(720, 780)])] : BusyMap), Canon kv.2 ∧
      ∀ iv ∈ kv.2, 0 * 1440 ≤ iv.1 ∧ iv.2 ≤ 0 * 1440 + 1439) ∧
    (([("Alice", [(720, 780)])] : BusyMap) = [] →
      find_common_free [("Alice", [(720, 780)])] 0 = []) ∧
    (([("Alice", [(720, 780)])] : BusyMap) ≠ [] →
      ∀ t, memPt t (find_common_free [("Alice", [(720, 780)])] 0) ↔
        (0 * 1440 ≤ t ∧ t < 0 * 1440 + 1439 ∧
          ∀ kv ∈ ([("Alice", [(720, 780)])] : BusyMap), ¬ memPt t kv.2)) ∧
    (∀ name, find_common_free [(name, [])] 0 =
      [(0 * 1440, 0 * 1440 + 1439)]) :=
  ⟨by decide, c4_fold_correctness [("Alice", [(720, 780)])] 0 (by decide)⟩

/-- C5: complement closure of `invert` — for canonical busy B inside window
W with W.1 < W.2, the free intervals are disjoint from B as point sets, and
their union with B is exactly the half-open span of W. -/
theorem c5_invert_complement (B : List Iv) (W : Iv) (hc : Canon B)
    (hW : W.1 < W.2) (hin : ∀ iv ∈ B, W.1 ≤ iv.1 ∧ iv.2 ≤ W.2) :
    (∀ t, ¬ (memPt t (invert B W) ∧ memPt t B)) ∧
    (∀ t, memPt t (invert B W) ∨ memPt t B ↔ W.1 ≤ t ∧ t < W.2) := by
  have him := invert_mem hc hin
  constructor
  · rintro t ⟨h1, h2⟩
    exact ((him t).1 h1).2.2 h2
  · intro t
    constructor
    · rintro (h1 | h2)
      · exact ⟨((him t).1 h1).1, ((him t).1 h1).2.1⟩
      · obtain ⟨iv, hiv, ha, hb⟩ := h2
        have := hin iv hiv
        exact ⟨by omega, by omega⟩
    · rintro ⟨h1, h2⟩
      by_cases hB : memPt t B
      · exact Or.inr hB
      · exact Or.inl ((him t).2 ⟨h1, h2, hB⟩)

/-- Witness for C5 at a concrete canonical busy list and window. -/
theorem c5_invert_complement_witness :
    (Canon [(2, 4), (6, 8)] ∧ (0 : Nat) < 10 ∧
      ∀ iv ∈ ([(2, 4), (6, 8)] : List Iv), 0 ≤ iv.1 ∧ iv.2 ≤ 10) ∧
    ((∀ t, ¬ (memPt t (invert [(2, 4), (6, 8)] (0, 10)) ∧
        memPt t [(2, 4), (6, 8)])) ∧
      (∀ t, memPt t (invert [(2, 4), (6, 8)] (0, 10)) ∨
        memPt t [(2, 4), (6, 8)] ↔ 0 ≤ t ∧ t < 10)) :=
  ⟨⟨by decide, by decide, by decide⟩,
    c5_invert_complement [(2, 4), (6, 8)] (0, 10) (by decide) (by decide)
      (by decide)⟩

/-- C6 counterexample: `merge` does not exclude degenerate intervals — the
zero-length interval (5, 5) survives merging, contradicting the claim that
no interval with start >= end appears in the output. -/
theorem c6_counterexample :
    merge [(5, 5)] = [(5, 5)] ∧ (5, 5) ∈ merge [(5, 5)] ∧
    ¬ ((5, 5) : Iv).1 < ((5, 5) : Iv).2 :=
  ⟨rfl, by decide, by decide⟩

/-- C6 (amended): for every input list, `merge` returns a list sorted by
start in non-decreasing order in which every earlier interval ends strictly
before every later one starts (no two overlap or touch); degenerate
intervals are however not excluded and may appear in the output. -/
theorem c6_merge_canonical (X : List Iv) :
    List.Sorted startLe (merge X) ∧ List.Pairwise gap (merge X) := by
  obtain ⟨hs, hc⟩ := merge_sorted_chain X
  exact ⟨hs, sorted_chain'_pairwise hs hc⟩

/-- C7: `intersect` is commutative and associative as an operation on point
sets for canonical inputs, and its output is canonical. -/
theorem c7_intersect_comm_assoc (A B C : List Iv) (hA : Canon A)
    (hB : Canon B) (hC : Canon C) :
    (∀ t, memPt t (intersect A B) ↔ memPt t (intersect B A)) ∧
    (∀ t, memPt t (intersect (intersect A B) C) ↔
      memPt t (intersect A (intersect B C))) ∧
    Canon (intersect A B) := by
  have hAB := intersect_canon hA hB
  have hBC := intersect_canon hB hC
  refine ⟨?_, ?_, hAB⟩
  · intro t
    rw [intersect_mem hA hB, intersect_mem hB hA]
    exact and_comm
  · intro t
    rw [intersect_mem hAB hC, intersect_mem hA hB, intersect_mem hA hBC,
      intersect_mem hB hC]
    exact and_assoc

/-- Witness for C7 at concrete canonical interval lists. -/
theorem c7_intersect_comm_assoc_witness :
    (Canon [(0, 5), (7, 9)] ∧ Canon [(1, 8)] ∧ Canon [(2, 3), (4, 10)]) ∧
    ((∀ t, memPt t (intersect [(0, 5), (7, 9)] [(1, 8)]) ↔
        memPt t (intersect [(1, 8)] [(0, 5), (7, 9)])) ∧
      (∀ t, memPt t (intersect (intersect [(0, 5), (7, 9)] [(1, 8)])
          [(2, 3), (4, 10)]) ↔
        memPt t (intersect [(0, 5), (7, 9)]
          (intersect [(1, 8)] [(2, 3), (4, 10)]))) ∧
      Canon (intersect [(0, 5), (7, 9)] [(1, 8)])) :=
  ⟨⟨by decide, by decide, by decide⟩,
    c7_intersect_comm_assoc [(0, 5), (7, 9)] [(1, 8)] [(2, 3), (4, 10)]
      (by decide) (by decide) (by decide)⟩

/-- C8: `get_acceptable_times` is exactly the order-preserving filter
keeping intervals whose time-of-day start is at least the low bound and
whose time-of-day end is at most the high bound (so straddling intervals
are dropped whole, never clipped), and the module defaults are
06:00 and 22:00. -/
theorem c8_filter_contract :
    (∀ (cf : List Iv) (lo hi : Nat),
      get_acceptable_times cf lo hi =
        cf.filter (fun iv => decide (lo ≤ iv.1 % 1440 ∧ iv.2 % 1440 ≤ hi))) ∧
    ACCEPTABLE_START = 6 * 60 ∧ ACCEPTABLE_END = 22 * 60 := by
  refine ⟨?_, rfl, rfl⟩
  intro cf lo hi
  induction cf with
  | nil => rfl
  | cons iv rest ih =>
    by_cases h : lo ≤ iv.1 % 1440 ∧ iv.2 % 1440 ≤ hi <;>
      simp [get_acceptable_times, h, List.filter_cons, ih]

/-- C9: merge is idempotent — merging an already-merged list changes
nothing. -/
theorem c9_merge_idempotent (X : List Iv) : merge (merge X) = merge X := by
  obtain ⟨hs, hc⟩ := merge_sorted_chain X
  exact merge_eq_self hs hc

/-- C10: a profile record lacking the 'calendar' key behaves exactly like
one with an empty calendar: `normalize_calendars` does not fail on it and,
provided no later record reuses the name, the resulting busy map sends the
name to the empty busy list. -/
theorem c10_missing_calendar_key (d : Nat) (name : String)
    (pre post : List Profile) (h : ∀ q ∈ post, q.1 ≠ name) :
    normalize_calendars (pre ++ (name, none) :: post) d =
      normalize_calendars (pre ++ (name, some []) :: post) d ∧
    ∀ m, normalize_calendars (pre ++ (name, none) :: post) d = .ok m →
      (name, []) ∈ m := by
  constructor
  · show normAux d [] (pre ++ (name, none) :: post) =
      normAux d [] (pre ++ (name, some []) :: post)
    rw [normAux_append, normAux_append]
    rfl
  · intro m hok
    replace hok : (normAux d [] pre).bind
        (fun m1 => normAux d m1 ((name, none) :: post)) = .ok m := by
      rw [← normAux_append]
      exact hok
    cases h1 : normAux d [] pre with
    | error e =>
      rw [h1] at hok
      cases hok
    | ok m1 =>
      rw [h1] at hok
      replace hok : normAux d (dictInsert m1 name (merge [])) post =
          .ok m := hok
      exact normAux_mem_preserve (dictInsert_mem_self m1 name (merge []))
        h hok

/-- Witness for C10 at a concrete profile list around a record lacking the
calendar key. -/
theorem c10_missing_calendar_key_witness :
    (∀ q ∈ ([("Dave", some [("01:00", "02:00")])] : List Profile),
      q.1 ≠ "Alice") ∧
    (normalize_calendars
        ([("Carol", some [("03:00", "04:00")])] ++ ("Alice", none) ::
          [("Dave", some [("01:00", "02:00")])]) 0 =
      normalize_calendars
        ([("Carol", some [("03:00", "04:00")])] ++ ("Alice", some []) ::
          [("Dave", some [("01:00", "02:00")])]) 0 ∧
    ∀ m, normalize_calendars
        ([("Carol", some [("03:00", "04:00")])] ++ ("Alice", none) ::
          [("Dave", some [("01:00", "02:00")])]) 0 = .ok m →
      ("Alice", ([] : List Iv)) ∈ m) :=
  ⟨by decide, c10_missing_calendar_key 0 "Alice"
    [("Carol", some [("03:00", "04:00")])]
    [("Dave", some [("01:00", "02:00")])] (by decide)⟩

end TimeIntersection
